import Mathlib

/-!
# Verification of the mock-builder object-construction utility

Shallow embedding of `src/index.ts`: a `Builder<T>` wraps a `Shape<T>`
(a mapping from property names to literal values or zero-argument thunks)
and resolves it into concrete instances via `build`, with chainable
transformation methods (`withValue`, `setConditionalValue`,
`applyDefaultValues`, `mapValue`) each returning `new Builder(newShape)`.

Modelling choices:
* A JS object is modelled as an association list in insertion order with
  unique keys (`List (String × Field V)`); `Object.entries` iterates it in
  order.  The JS computed-property spread `{...s, [k]: f}` keeps an existing
  key `k` at its position (overwriting its value) and appends a fresh key at
  the end; `setKey` below implements exactly that.
* A thunk `() => T[K]` may be stateful or random; it is modelled by its
  outcome sequence `g : Nat → V`, where `g j` is the value returned by the
  thunk's `j`-th invocation.  `buildSingle` threads an explicit invocation
  counter per key, so "each thunk is invoked exactly once per instance" is a
  provable consequence of the resolution loop, not an assumption.
* `Math.random()` returns a rational `rnd` with `0 ≤ rnd < 1`, passed to
  `build` explicitly; counts are `Int` (JS numbers at the call sites in the
  claims are integers, possibly negative).
-/

namespace MockBuilder

/-- A shape field: either a literal value, or a thunk modelled by the
sequence of values its successive invocations return. -/
inductive Field (V : Type) where
  | lit : V → Field V
  | thunk : (Nat → V) → Field V

/-- `Shape<T>`: property names mapped to literal values or thunks,
in insertion order. -/
abbrev Shape (V : Type) := List (String × Field V)

/-- Whether the object already has the key (JS `k in obj`). -/
def hasKey : Shape V → String → Bool
  | [], _ => false
  | (k', _) :: rest, k => if k' = k then true else hasKey rest k

/-- JS property read `s[k]`: the binding of `k`, if present. -/
def shapeGet : Shape V → String → Option (Field V)
  | [], _ => none
  | (k', f) :: rest, k => if k' = k then some f else shapeGet rest k

/-- Overwrite the field stored at key `k`, keeping its position. -/
def replaceKey : Shape V → String → Field V → Shape V
  | [], _, _ => []
  | (k', f') :: rest, k, f =>
    if k' = k then (k, f) :: replaceKey rest k f
    else (k', f') :: replaceKey rest k f

/-- JS computed-property spread `{...s, [k]: f}`: an existing key keeps its
position but gets the new field; a fresh key is appended at the end. -/
def setKey (s : Shape V) (k : String) (f : Field V) : Shape V :=
  if hasKey s k then replaceKey s k f else s ++ [(k, f)]

/-- JS object spread `{...s, ...d}`: entries of `d` applied left to right
over `s`, so `d`'s binding wins for keys present in both. -/
def spreadMerge (s : Shape V) (d : Shape V) : Shape V :=
  d.foldl (fun acc p => setKey acc p.1 p.2) s

/-- Per-key thunk invocation counters (closure state of the thunks). -/
abbrev Counters := String → Nat

/-- Record one more invocation of the thunk stored at key `k`. -/
def bump (c : Counters) (k : String) : Counters :=
  fun k' => if k' = k then c k + 1 else c k'

/-- `buildSingle` (private method): `Object.entries(this._shape).reduce`,
copying a literal and invoking a thunk once per entry.  Returns the resolved
instance together with the updated thunk-invocation counters. -/
def buildSingle : Shape V → Counters → List (String × V) × Counters
  | [], c => ([], c)
  | (k, Field.lit v) :: rest, c =>
    let r := buildSingle rest c
    ((k, v) :: r.1, r.2)
  | (k, Field.thunk g) :: rest, c =>
    let r := buildSingle rest (bump c k)
    ((k, g (c k)) :: r.1, r.2)

/-- The `for (let i = 0; i < entitiesCount; i++) entities.push(this.buildSingle())`
loop: `n` sequential resolutions, threading thunk state. -/
def buildMany (s : Shape V) : Nat → Counters → List (List (String × V)) × Counters
  | 0, c => ([], c)
  | n + 1, c =>
    let r := buildSingle s c
    let rs := buildMany s n r.2
    (r.1 :: rs.1, rs.2)

/-- `getRandomInt(min, max) = Math.floor(Math.random() * (max - min + 1)) + min`,
with `Math.random()` abstracted as a rational `rnd`. -/
def getRandomInt (min max : Int) (rnd : ℚ) : Int :=
  Int.floor (rnd * ((max : ℚ) - (min : ℚ) + 1)) + min

/-- The `count` argument of `build`: absent, a number, or a `{min, max}` range. -/
inductive Count where
  | noArg : Count
  | num : Int → Count
  | range : Int → Int → Count

/-- The value of the local `entitiesCount` after the two `if` branches of
`build`: 1 by default, the number if one was passed, or a random draw for a
`{min, max}` object. -/
def entitiesCount (cnt : Count) (rnd : ℚ) : Int :=
  match cnt with
  | Count.noArg => 1
  | Count.num n => n
  | Count.range lo hi => getRandomInt lo hi rnd

/-- Return type of `build`: `T | T[]` — a bare instance or an array. -/
inductive BuildResult (V : Type) where
  | single : List (String × V) → BuildResult V
  | many : List (List (String × V)) → BuildResult V
  deriving DecidableEq

/-- Whether a `build` result is the array form. -/
def BuildResult.isMany : BuildResult V → Bool
  | BuildResult.many _ => true
  | BuildResult.single _ => false

/-- `build(count?)`: computes `entitiesCount`, returns a bare instance when
it equals 1, otherwise runs the construction loop (which runs zero times for
counts ≤ 0, yielding `[]`). -/
def build (s : Shape V) (cnt : Count) (rnd : ℚ) (c : Counters) :
    BuildResult V × Counters :=
  let n := entitiesCount cnt rnd
  if n = 1 then
    let r := buildSingle s c
    (BuildResult.single r.1, r.2)
  else
    let r := buildMany s n.toNat c
    (BuildResult.many r.1, r.2)

/-- `withValue(prop, value)`: `{...this._shape, [prop]: () => value}`. -/
def withValue (s : Shape V) (k : String) (v : V) : Shape V :=
  setKey s k (Field.thunk (fun _ => v))

/-- `setConditionalValue(prop, condition, trueValue, falseValue)`:
`{...this._shape, [prop]: () => (condition ? trueValue : falseValue)}`. -/
def setConditionalValue (s : Shape V) (k : String) (cond : Bool) (tv fv : V) :
    Shape V :=
  setKey s k (Field.thunk (fun _ => if cond then tv else fv))

/-- `applyDefaultValues(defaults)`: `{...this._shape, ...defaults}`.
Note the spread order: entries of `defaults` are applied after the existing
shape, so a default overrides an existing binding for a shared key. -/
def applyDefaultValues (s : Shape V) (d : Shape V) : Shape V :=
  spreadMerge s d

/-- The value a field produces at its `j`-th thunk invocation (a literal is
unaffected by `j`).  This is `resolveValue` inside `mapValue`. -/
def resolveFieldAt : Field V → Nat → V
  | Field.lit v, _ => v
  | Field.thunk g, j => g j

/-- The `resolveValue` closure of `mapValue` applied to `this._shape[prop]`:
when the key is absent JS reads `undefined`; `Shape<T>` is total over
`keyof T`, so that branch is unreachable for well-typed callers and is
modelled by `default`. -/
def resolveOriginalAt [Inhabited V] (orig : Option (Field V)) (j : Nat) : V :=
  match orig with
  | some f => resolveFieldAt f j
  | none => default

/-- `mapValue(prop, mapFn)`: captures `original = this._shape[prop]` and binds
`prop` to `() => mapFn(resolveValue())`.  The wrapper is the only reference
left to `original`, so the wrapper's `j`-th invocation is also the wrapped
thunk's `j`-th invocation. -/
def mapValue [Inhabited V] (s : Shape V) (k : String) (fn : V → V) : Shape V :=
  let original := shapeGet s k
  setKey s k (Field.thunk (fun j => fn (resolveOriginalAt original j)))

/-- Number of entries of the shape that bind key `k` to a thunk (1 or 0 for
shapes with unique keys, as produced by JS objects). -/
def thunkCount (s : Shape V) (k : String) : Nat :=
  s.countP (fun p =>
    p.1 = k && (match p.2 with
                | Field.lit _ => false
                | Field.thunk _ => true))

/-- One chainable transformation call, with its arguments. -/
inductive Transform (V : Type) [Inhabited V] where
  | withValue (k : String) (v : V)
  | setConditionalValue (k : String) (cond : Bool) (tv fv : V)
  | applyDefaultValues (d : Shape V)
  | mapValue (k : String) (fn : V → V)

/-- The shape of the builder returned by a transformation call on a builder
holding shape `s`. -/
def applyTransform [Inhabited V] (s : Shape V) : Transform V → Shape V
  | Transform.withValue k v => withValue s k v
  | Transform.setConditionalValue k cond tv fv => setConditionalValue s k cond tv fv
  | Transform.applyDefaultValues d => applyDefaultValues s d
  | Transform.mapValue k fn => mapValue s k fn

/-- A heap of builder objects; a builder's identity is its index.  Every
transformation method ends in `return new Builder(newShape)` and never
assigns `this._shape`, so a call allocates a new builder computed from the
receiver's shape and leaves every existing builder untouched. -/
def runTransform [Inhabited V] (h : List (Shape V)) (step : Nat × Transform V) :
    List (Shape V) :=
  h ++ [applyTransform (h.getD step.1 []) step.2]

/-- Run a sequence of transformation calls, each addressed to any builder
already on the heap. -/
def runTransforms [Inhabited V] (h : List (Shape V)) :
    List (Nat × Transform V) → List (Shape V)
  | [] => h
  | step :: steps => runTransforms (runTransform h step) steps

/-- JS property read on a resolved instance: the value stored at key `k`. -/
def getVal : List (String × V) → String → Option V
  | [], _ => none
  | (k', v) :: rest, k => if k' = k then some v else getVal rest k

/-! ## Core resolution lemmas -/

theorem bump_apply_self (c : Counters) (k : String) : bump c k k = c k + 1 := by
  simp [bump]

theorem bump_apply_ne (c : Counters) (k k' : String) (h : k' ≠ k) :
    bump c k k' = c k' := by
  simp [bump, h]

/-- Resolution preserves the key list (order included). -/
theorem buildSingle_keys (s : Shape V) (c : Counters) :
    (buildSingle s c).1.map Prod.fst = s.map Prod.fst := by
  induction s generalizing c with
  | nil => rfl
  | cons p rest ih =>
    obtain ⟨k, f⟩ := p
    cases f with
    | lit v => simpa [buildSingle] using ih c
    | thunk g => simpa [buildSingle] using ih (bump c k)

/-- The central resolution lemma: looking up `k` in a resolved instance
gives the shape's binding for `k` resolved at the current invocation count
of `k`'s thunk. -/
theorem buildSingle_getVal (s : Shape V) (c : Counters) (k : String) :
    getVal (buildSingle s c).1 k
      = Option.map (fun f => resolveFieldAt f (c k)) (shapeGet s k) := by
  induction s generalizing c with
  | nil => rfl
  | cons p rest ih =>
    obtain ⟨k', f⟩ := p
    by_cases hk : k' = k
    · subst hk
      cases f with
      | lit v => simp [buildSingle, getVal, shapeGet, resolveFieldAt]
      | thunk g => simp [buildSingle, getVal, shapeGet, resolveFieldAt]
    · cases f with
      | lit v =>
        simpa [buildSingle, getVal, shapeGet, hk] using ih c
      | thunk g =>
        have := ih (bump c k')
        simpa [buildSingle, getVal, shapeGet, hk,
          bump_apply_ne c k' k (fun h => hk h.symm)] using this

/-- One resolution advances each key's counter by the number of thunks the
shape binds to that key. -/
theorem buildSingle_snd (s : Shape V) (c : Counters) (k : String) :
    (buildSingle s c).2 k = c k + thunkCount s k := by
  induction s generalizing c with
  | nil => simp [buildSingle, thunkCount]
  | cons p rest ih =>
    obtain ⟨k', f⟩ := p
    by_cases hk : k' = k
    · subst hk
      cases f with
      | lit v => simp [buildSingle, thunkCount, List.countP_cons, ih c]
      | thunk g =>
        have h2 := ih (bump c k')
        simp only [buildSingle]
        rw [h2, bump_apply_self]
        simp [thunkCount, List.countP_cons]
        omega
    · cases f with
      | lit v => simp [buildSingle, thunkCount, List.countP_cons, hk, ih c]
      | thunk g =>
        have h2 := ih (bump c k')
        rw [bump_apply_ne c k' k (fun h => hk h.symm)] at h2
        simp only [buildSingle]
        rw [h2]
        simp [thunkCount, List.countP_cons, hk]

/-! ## `setKey` lemmas -/

theorem shapeGet_replaceKey_self (s : Shape V) (k : String) (f : Field V)
    (h : hasKey s k = true) :
    shapeGet (replaceKey s k f) k = some f := by
  induction s with
  | nil => simp [hasKey] at h
  | cons p rest ih =>
    obtain ⟨k1, f1⟩ := p
    by_cases hk : k1 = k
    · rw [replaceKey, if_pos hk]
      simp [shapeGet]
    · have hr : hasKey rest k = true := by
        rw [hasKey, if_neg hk] at h
        exact h
      rw [replaceKey, if_neg hk, shapeGet, if_neg hk]
      exact ih hr

theorem shapeGet_replaceKey_ne (s : Shape V) (k : String) (f : Field V)
    (k' : String) (h : k' ≠ k) :
    shapeGet (replaceKey s k f) k' = shapeGet s k' := by
  induction s with
  | nil => rfl
  | cons p rest ih =>
    obtain ⟨k1, f1⟩ := p
    by_cases hk : k1 = k
    · rw [replaceKey, if_pos hk, shapeGet, if_neg (Ne.symm h), shapeGet,
        if_neg (fun h2 : k1 = k' => h (h2 ▸ hk))]
      exact ih
    · rw [replaceKey, if_neg hk, shapeGet, shapeGet]
      by_cases h2 : k1 = k'
      · rw [if_pos h2, if_pos h2]
      · rw [if_neg h2, if_neg h2]
        exact ih

theorem shapeGet_append_single_self (s : Shape V) (k : String) (f : Field V)
    (h : hasKey s k = false) :
    shapeGet (s ++ [(k, f)]) k = some f := by
  induction s with
  | nil => simp [shapeGet]
  | cons p rest ih =>
    obtain ⟨k1, f1⟩ := p
    by_cases hk : k1 = k
    · simp [hasKey, hk] at h
    · have hr : hasKey rest k = false := by simpa [hasKey, hk] using h
      simpa [shapeGet, hk] using ih hr

theorem shapeGet_append_single_ne (s : Shape V) (k : String) (f : Field V)
    (k' : String) (h : k' ≠ k) :
    shapeGet (s ++ [(k, f)]) k' = shapeGet s k' := by
  induction s with
  | nil => simp [shapeGet, Ne.symm h]
  | cons p rest ih =>
    obtain ⟨k1, f1⟩ := p
    by_cases h2 : k1 = k'
    · simp [shapeGet, h2]
    · simp [shapeGet, h2, ih]

/-- After `{...s, [k]: f}` the binding of `k` is `f`. -/
theorem shapeGet_setKey_self (s : Shape V) (k : String) (f : Field V) :
    shapeGet (setKey s k f) k = some f := by
  unfold setKey
  by_cases hr : hasKey s k
  · rw [if_pos hr]
    exact shapeGet_replaceKey_self s k f hr
  · rw [if_neg hr]
    exact shapeGet_append_single_self s k f (by simpa using hr)

/-- `{...s, [k]: f}` leaves every other key's binding unchanged. -/
theorem shapeGet_setKey_ne (s : Shape V) (k : String) (f : Field V)
    (k' : String) (h : k' ≠ k) :
    shapeGet (setKey s k f) k' = shapeGet s k' := by
  unfold setKey
  by_cases hr : hasKey s k
  · rw [if_pos hr]
    exact shapeGet_replaceKey_ne s k f k' h
  · rw [if_neg hr]
    exact shapeGet_append_single_ne s k f k' h

/-! ## `buildMany` lemmas -/

theorem buildMany_length (s : Shape V) (n : Nat) (c : Counters) :
    (buildMany s n c).1.length = n := by
  induction n generalizing c with
  | zero => rfl
  | succ n ih => simp [buildMany, ih]

theorem buildMany_snd (s : Shape V) (n : Nat) (c : Counters) (k : String) :
    (buildMany s n c).2 k = c k + n * thunkCount s k := by
  induction n generalizing c with
  | zero => simp [buildMany]
  | succ n ih =>
    simp only [buildMany]
    rw [ih, buildSingle_snd]
    ring

/-- The `i`-th instance of a bulk build is a fresh resolution in which every
key's thunk has already been invoked `i` times (once per earlier instance,
for shapes with unique keys). -/
theorem buildMany_getElem (s : Shape V) (n : Nat) (c : Counters)
    (i : Nat) (hi : i < n) :
    (buildMany s n c).1[i]?
      = some (buildSingle s (fun k => c k + i * thunkCount s k)).1 := by
  induction n generalizing c i with
  | zero => omega
  | succ n ih =>
    cases i with
    | zero =>
      have h0 : (fun k => c k + 0 * thunkCount s k) = c := by
        funext k
        simp
      simp [buildMany, h0]
    | succ j =>
      have hj : j < n := by omega
      simp only [buildMany, List.getElem?_cons_succ]
      rw [ih _ j hj]
      have h1 : (fun k => (buildSingle s c).2 k + j * thunkCount s k)
          = fun k => c k + (j + 1) * thunkCount s k := by
        funext k
        rw [buildSingle_snd]
        ring
      rw [h1]

/-! ## `thunkCount` on unique-key shapes -/

theorem thunkCount_eq_zero_of_not_mem (s : Shape V) (k : String)
    (h : k ∉ s.map Prod.fst) :
    thunkCount s k = 0 := by
  induction s with
  | nil => rfl
  | cons p rest ih =>
    obtain ⟨k1, f1⟩ := p
    have hk : k1 ≠ k := by
      intro h1
      exact h (by simp [h1])
    have hr : k ∉ rest.map Prod.fst := by
      intro h1
      exact h (by simp [h1])
    simp [thunkCount, List.countP_cons, hk] at *
    exact ih hr

/-- In a unique-key shape that binds `k` to a thunk, exactly one entry holds
that thunk. -/
theorem thunkCount_eq_one (s : Shape V) (k : String) (g : Nat → V)
    (hnd : (s.map Prod.fst).Nodup) (h : shapeGet s k = some (Field.thunk g)) :
    thunkCount s k = 1 := by
  induction s with
  | nil => simp [shapeGet] at h
  | cons p rest ih =>
    obtain ⟨k1, f1⟩ := p
    rw [List.map_cons, List.nodup_cons] at hnd
    by_cases hk : k1 = k
    · rw [shapeGet, if_pos hk] at h
      have hf : f1 = Field.thunk g := by
        injection h
      have hz : thunkCount rest k = 0 :=
        thunkCount_eq_zero_of_not_mem rest k (hk ▸ hnd.1)
      subst hf
      simp only [thunkCount, List.countP_cons] at hz ⊢
      simp [hk, hz]
    · rw [shapeGet, if_neg hk] at h
      have h2 := ih hnd.2 h
      simp only [thunkCount, List.countP_cons] at h2 ⊢
      simp [hk, h2]

/-! ## `getRandomInt` bounds -/

/-- `getRandomInt(min, max)` lands in `[min, max]` whenever `min ≤ max` and
the random draw is in `[0, 1)`. -/
theorem getRandomInt_bounds (lo hi : Int) (hle : lo ≤ hi)
    (rnd : ℚ) (h0 : 0 ≤ rnd) (h1 : rnd < 1) :
    lo ≤ getRandomInt lo hi rnd ∧ getRandomInt lo hi rnd ≤ hi := by
  have hcast : (lo : ℚ) ≤ (hi : ℚ) := by exact_mod_cast hle
  have hfac : (0 : ℚ) < (hi : ℚ) - (lo : ℚ) + 1 := by linarith
  have hlow : (0 : ℤ) ≤ Int.floor (rnd * ((hi : ℚ) - (lo : ℚ) + 1)) := by
    apply Int.le_floor.mpr
    push_cast
    exact mul_nonneg h0 hfac.le
  have hup : Int.floor (rnd * ((hi : ℚ) - (lo : ℚ) + 1)) < hi - lo + 1 := by
    apply Int.floor_lt.mpr
    push_cast
    calc rnd * ((hi : ℚ) - (lo : ℚ) + 1)
        < 1 * ((hi : ℚ) - (lo : ℚ) + 1) := by
          exact mul_lt_mul_of_pos_right h1 hfac
      _ = (hi : ℚ) - (lo : ℚ) + 1 := by ring
  unfold getRandomInt
  omega

/-- With `min = max = m` the draw is deterministic: exactly `m`. -/
theorem getRandomInt_self (m : Int) (rnd : ℚ) (h0 : 0 ≤ rnd) (h1 : rnd < 1) :
    getRandomInt m m rnd = m := by
  have hf : Int.floor (rnd * ((m : ℚ) - (m : ℚ) + 1)) = 0 := by
    rw [show (m : ℚ) - (m : ℚ) + 1 = 1 by ring, mul_one]
    rw [Int.floor_eq_zero_iff]
    exact ⟨h0, h1⟩
  unfold getRandomInt
  rw [hf]
  ring

/-! ## Concrete fixtures used to instantiate the theorems -/

/-- Fresh thunk state: no thunk has been invoked yet. -/
def czero : Counters := fun _ => 0

/-- A shape with a literal field and a (stateful) thunk field. -/
def sampleShape : Shape Int :=
  [("id", Field.lit 7), ("name", Field.thunk (fun j => (j : Int) + 5))]

/-- A purely literal shape, as in the repo's `{id: 1, name: "foo"}` example. -/
def litShape : Shape Int := [("id", Field.lit 7), ("name", Field.lit 3)]

/-- The shape of the repository's `applyDefaultValues` unit test. -/
def profileShape : Shape String :=
  [("id", Field.lit "1"), ("name", Field.lit "John Doe")]

/-- The defaults object of the repository's `applyDefaultValues` unit test. -/
def profileDefaults : Shape String :=
  [("id", Field.lit "2"), ("name", Field.lit "Default Name")]

/-! ## Claim theorems -/

/-- C5: resolving a shape (as `build()` with no argument does) yields a plain
object with exactly the shape's keys, where a literal binding resolves to the
literal itself and a thunk binding to a fresh invocation of the thunk (at the
key's current invocation count). -/
theorem buildSingle_resolves_literals_and_thunks (V : Type) (s : Shape V)
    (c : Counters) (rnd : ℚ) :
    build s Count.noArg rnd c
        = (BuildResult.single (buildSingle s c).1, (buildSingle s c).2)
    ∧ (buildSingle s c).1.map Prod.fst = s.map Prod.fst
    ∧ (∀ k v, shapeGet s k = some (Field.lit v) →
        getVal (buildSingle s c).1 k = some v)
    ∧ (∀ k g, shapeGet s k = some (Field.thunk g) →
        getVal (buildSingle s c).1 k = some (g (c k))) := by
  refine ⟨rfl, buildSingle_keys s c, ?_, ?_⟩
  · intro k v h
    rw [buildSingle_getVal, h]
    rfl
  · intro k g h
    rw [buildSingle_getVal, h]
    rfl

/-- Witness for C5 on a concrete shape holding a literal `7` at `"id"` and the
thunk `j ↦ j + 5` at `"name"`, resolved from fresh state. -/
theorem buildSingle_resolves_witness :
    getVal (buildSingle sampleShape czero).1 "id" = some 7
    ∧ getVal (buildSingle sampleShape czero).1 "name" = some 5 := by
  have h := buildSingle_resolves_literals_and_thunks Int sampleShape czero 0
  refine ⟨h.2.2.1 "id" 7 rfl, ?_⟩
  have h2 := h.2.2.2 "name" (fun j => (j : Int) + 5) rfl
  simpa using h2

/-- C6: `withValue(k, v)` produces a builder that resolves `k` to `v` from any
thunk state, replacing whatever binding `k` had, while the binding and the
resolved value of every other key are carried over unchanged. -/
theorem withValue_overrides_and_preserves (V : Type) (s : Shape V)
    (k : String) (v : V) (c : Counters) :
    getVal (buildSingle (withValue s k v) c).1 k = some v
    ∧ (∀ k', k' ≠ k → shapeGet (withValue s k v) k' = shapeGet s k')
    ∧ (∀ k', k' ≠ k → getVal (buildSingle (withValue s k v) c).1 k'
        = getVal (buildSingle s c).1 k') := by
  refine ⟨?_, ?_, ?_⟩
  · rw [buildSingle_getVal, withValue, shapeGet_setKey_self]
    rfl
  · intro k' h
    exact shapeGet_setKey_ne s k _ k' h
  · intro k' h
    rw [buildSingle_getVal, buildSingle_getVal, withValue,
      shapeGet_setKey_ne s k _ k' h]

/-- Witness for C6: overriding `"id"` (previously the literal `7`) with `42`
resolves `"id"` to `42` and leaves `"name"` resolving as before. -/
theorem withValue_witness :
    getVal (buildSingle (withValue litShape "id" 42) czero).1 "id" = some 42
    ∧ getVal (buildSingle (withValue litShape "id" 42) czero).1 "name"
        = getVal (buildSingle litShape czero).1 "name" := by
  have h := withValue_overrides_and_preserves Int litShape "id" 42 czero
  exact ⟨h.1, h.2.2 "name" (by decide)⟩

/-- C9: `setConditionalValue(k, cond, tv, fv)` builds the very same shape as
`withValue(k, cond ? tv : fv)`, hence resolves identically under every count
and thunk state, and resolves `k` to `tv` when `cond` is true and `fv`
otherwise; the boolean is the one passed at call time. -/
theorem setConditionalValue_refines_withValue (V : Type) (s : Shape V)
    (k : String) (cond : Bool) (tv fv : V) (cnt : Count) (rnd : ℚ)
    (c : Counters) :
    setConditionalValue s k cond tv fv = withValue s k (if cond then tv else fv)
    ∧ build (setConditionalValue s k cond tv fv) cnt rnd c
        = build (withValue s k (if cond then tv else fv)) cnt rnd c
    ∧ getVal (buildSingle (setConditionalValue s k cond tv fv) c).1 k
        = some (if cond then tv else fv) := by
  refine ⟨rfl, rfl, ?_⟩
  rw [buildSingle_getVal, setConditionalValue, shapeGet_setKey_self]
  rfl

/-- C10: a negative count is neither rejected nor treated as the single
instance case: the loop body never runs and `build` returns the empty array,
leaving thunk state untouched. -/
theorem build_negative_count_empty (V : Type) (s : Shape V) (n : Int)
    (hn : n < 0) (rnd : ℚ) (c : Counters) :
    build s (Count.num n) rnd c = (BuildResult.many [], c) := by
  have hne : ¬(entitiesCount (Count.num n) rnd = 1) := by
    simp only [entitiesCount]
    omega
  have ht : n.toNat = 0 := by omega
  simp only [build, entitiesCount] at hne ⊢
  rw [if_neg hne, ht]
  rfl

/-- Witness for C10 at count `-1`. -/
theorem build_negative_count_witness :
    build litShape (Count.num (-1)) 0 czero = (BuildResult.many [], czero) :=
  build_negative_count_empty Int litShape (-1) (by decide) 0 czero

/-- C7: `mapValue(k, f)` resolves `k` to `f` applied to whatever the original
binding would have resolved to (at the same thunk invocation), and chaining a
second `mapValue(k, g)` yields `g (f (original))`: transformations compose in
call order. -/
theorem mapValue_composes (V : Type) [Inhabited V] (s : Shape V) (k : String)
    (fld : Field V) (hf : shapeGet s k = some fld) (f g : V → V)
    (c : Counters) :
    getVal (buildSingle (mapValue s k f) c).1 k
        = some (f (resolveFieldAt fld (c k)))
    ∧ getVal (buildSingle (mapValue (mapValue s k f) k g) c).1 k
        = some (g (f (resolveFieldAt fld (c k)))) := by
  have h1 : shapeGet (mapValue s k f) k
      = some (Field.thunk (fun j => f (resolveOriginalAt (shapeGet s k) j))) := by
    simp only [mapValue]
    exact shapeGet_setKey_self s k _
  have h2 : shapeGet (mapValue (mapValue s k f) k g) k
      = some (Field.thunk
          (fun j => g (resolveOriginalAt (shapeGet (mapValue s k f) k) j))) := by
    simp only [mapValue]
    exact shapeGet_setKey_self _ k _
  constructor
  · rw [buildSingle_getVal, h1]
    simp only [hf]
    rfl
  · rw [buildSingle_getVal, h2]
    simp only [h1, hf]
    rfl

/-- Witness for C7: doubling then incrementing the `"name"` thunk (`j ↦ j + 5`,
first invocation gives `5`) resolves to `10`, and to `11` after the chained
call. -/
theorem mapValue_witness :
    getVal (buildSingle (mapValue sampleShape "name" (fun v => v * 2))
        czero).1 "name" = some 10
    ∧ getVal (buildSingle (mapValue
        (mapValue sampleShape "name" (fun v => v * 2)) "name"
        (fun v => v + 1)) czero).1 "name" = some 11 := by
  have h := mapValue_composes Int sampleShape "name"
    (Field.thunk (fun j => (j : Int) + 5)) rfl
    (fun v => v * 2) (fun v => v + 1) czero
  constructor
  · have h1 := h.1
    simpa [resolveFieldAt, czero] using h1
  · have h2 := h.2
    simpa [resolveFieldAt, czero] using h2

/-- C3: `build(1)` returns the bare single instance, not wrapped in an array,
and is indistinguishable from `build()` with no argument (same shape, same
thunk states). -/
theorem build_one_single (V : Type) (s : Shape V) (rnd : ℚ) (c : Counters) :
    build s (Count.num 1) rnd c = build s Count.noArg rnd c
    ∧ (build s (Count.num 1) rnd c).1 = BuildResult.single (buildSingle s c).1
    ∧ (build s (Count.num 1) rnd c).1.isMany = false :=
  ⟨rfl, rfl, rfl⟩

/-- C1: at the repository's own `applyDefaultValues` test input
(shape `{id: "1", name: "John Doe"}`, defaults `{id: "2", name: "Default Name"}`)
the code resolves `"id"` to the default `"2"`, not the existing `"1"`: the
spread `{...this._shape, ...defaults}` lets defaults override existing keys,
contradicting the method's own documentation. -/
theorem applyDefaultValues_defaults_override_at_test_input :
    getVal (buildSingle (applyDefaultValues profileShape profileDefaults)
        czero).1 "id" = some "2"
    ∧ getVal (buildSingle (applyDefaultValues profileShape profileDefaults)
        czero).1 "name" = some "Default Name"
    ∧ getVal (buildSingle profileShape czero).1 "id" = some "1" := by
  decide

theorem buildMany_getD (s : Shape V) (n : Nat) (c : Counters) (i : Nat)
    (hi : i < n) :
    (buildMany s n c).1.getD i []
      = (buildSingle s (fun k => c k + i * thunkCount s k)).1 := by
  have h1 := buildMany_getElem s n c i hi
  rw [List.getD_eq_getD_get?, List.get?_eq_getElem?, h1]
  rfl

/-- C4: `build(n)` for `n ≥ 2` returns an array of exactly `n` instances,
resolved in order: a literal field holds the identical value in every
instance, while a thunk field is invoked exactly once per instance — the
`i`-th instance observes the thunk's `i`-th outcome, and after the build the
thunk has been invoked exactly `n` more times. -/
theorem build_num_independent_instances (V : Type) (s : Shape V)
    (hnd : (s.map Prod.fst).Nodup) (n : Int) (hn : 2 ≤ n) (rnd : ℚ)
    (c : Counters) :
    (build s (Count.num n) rnd c).1 = BuildResult.many (buildMany s n.toNat c).1
    ∧ (buildMany s n.toNat c).1.length = n.toNat
    ∧ (∀ k v, shapeGet s k = some (Field.lit v) → ∀ i, i < n.toNat →
        getVal ((buildMany s n.toNat c).1.getD i []) k = some v)
    ∧ (∀ k g, shapeGet s k = some (Field.thunk g) →
        (∀ i, i < n.toNat →
          getVal ((buildMany s n.toNat c).1.getD i []) k = some (g (c k + i)))
        ∧ (buildMany s n.toNat c).2 k = c k + n.toNat) := by
  have hne : ¬(entitiesCount (Count.num n) rnd = 1) := by
    simp only [entitiesCount]
    omega
  refine ⟨?_, buildMany_length s n.toNat c, ?_, ?_⟩
  · simp only [build]
    rw [if_neg hne]
    rfl
  · intro k v h i hi
    rw [buildMany_getD s n.toNat c i hi, buildSingle_getVal, h]
    rfl
  · intro k g h
    have htc : thunkCount s k = 1 := thunkCount_eq_one s k g hnd h
    refine ⟨?_, ?_⟩
    · intro i hi
      rw [buildMany_getD s n.toNat c i hi, buildSingle_getVal]
      simp [h, htc, resolveFieldAt]
    · rw [buildMany_snd, htc]
      ring

/-- Witness for C4: three instances of a shape with literal `"id"` and the
thunk `j ↦ j + 5` at `"name"`; the third instance sees the thunk's third
outcome `7`, and `"id"` is `7` in it as well. -/
theorem build_num_witness :
    (build sampleShape (Count.num 3) 0 czero).1
        = BuildResult.many (buildMany sampleShape 3 czero).1
    ∧ getVal ((buildMany sampleShape 3 czero).1.getD 2 []) "id" = some 7
    ∧ getVal ((buildMany sampleShape 3 czero).1.getD 2 []) "name" = some 7 := by
  have h := build_num_independent_instances Int sampleShape (by decide) 3
    (by decide) 0 czero
  refine ⟨h.1, ?_, ?_⟩
  · exact h.2.2.1 "id" 7 rfl 2 (by decide)
  · have h2 := (h.2.2.2 "name" (fun j => (j : Int) + 5) rfl).1 2 (by decide)
    simpa [czero] using h2

/-- C2 counterexample: with `{min: 1, max: 1}` and random draw `0` the helper
returns R = 1 (inside `[min, max]`), but `build` returns a bare unwrapped
instance — not an ordered sequence of exactly one resolved instance as the
claim requires. -/
theorem build_range_one_counterexample :
    getRandomInt 1 1 0 = 1
    ∧ (build litShape (Count.range 1 1) 0 czero).1
        = BuildResult.single [("id", 7), ("name", 3)]
    ∧ (build litShape (Count.range 1 1) 0 czero).1.isMany = false := by
  have hr : getRandomInt 1 1 0 = 1 := by simp [getRandomInt]
  have hb : (build litShape (Count.range 1 1) 0 czero).1
      = BuildResult.single (buildSingle litShape czero).1 := by
    simp only [build, entitiesCount, hr]
    rfl
  refine ⟨hr, ?_, ?_⟩
  · rw [hb]
    decide
  · rw [hb]
    rfl

/-- C2 amended: `build({min, max})` draws `R = getRandomInt(min, max)` with
`min ≤ R ≤ max` (and `R = min` when `min = max`); when `R ≠ 1` it returns an
ordered sequence of exactly `R` resolved instances — in particular the empty
sequence when `R = 0` — but when `R = 1` it returns a single unwrapped
instance, exactly as `build(1)` does. -/
theorem build_range_amended (V : Type) (s : Shape V) (lo hi : Int)
    (_h0 : 0 ≤ lo) (hle : lo ≤ hi) (rnd : ℚ) (hr0 : 0 ≤ rnd) (hr1 : rnd < 1)
    (c : Counters) :
    lo ≤ getRandomInt lo hi rnd
    ∧ getRandomInt lo hi rnd ≤ hi
    ∧ (lo = hi → getRandomInt lo hi rnd = lo)
    ∧ (getRandomInt lo hi rnd = 1 →
        (build s (Count.range lo hi) rnd c).1
          = BuildResult.single (buildSingle s c).1)
    ∧ (getRandomInt lo hi rnd ≠ 1 →
        (build s (Count.range lo hi) rnd c).1
          = BuildResult.many (buildMany s (getRandomInt lo hi rnd).toNat c).1
        ∧ (buildMany s (getRandomInt lo hi rnd).toNat c).1.length
            = (getRandomInt lo hi rnd).toNat)
    ∧ (getRandomInt lo hi rnd = 0 →
        (build s (Count.range lo hi) rnd c).1 = BuildResult.many []) := by
  obtain ⟨hl, hu⟩ := getRandomInt_bounds lo hi hle rnd hr0 hr1
  refine ⟨hl, hu, ?_, ?_, ?_, ?_⟩
  · intro h
    subst h
    exact getRandomInt_self lo rnd hr0 hr1
  · intro h1
    simp only [build, entitiesCount, h1]
    rfl
  · intro h1
    refine ⟨?_, buildMany_length s _ c⟩
    simp only [build, entitiesCount]
    rw [if_neg h1]
  · intro h1
    simp only [build, entitiesCount]
    rw [if_neg (by omega : ¬(getRandomInt lo hi rnd = 1)), h1]
    rfl

/-- Witness for C2 amended at `{min: 2, max: 2}` with draw `0`: R = 2 and the
result is an array of exactly 2 instances. -/
theorem build_range_witness :
    getRandomInt 2 2 0 = 2
    ∧ (build litShape (Count.range 2 2) 0 czero).1
        = BuildResult.many (buildMany litShape 2 czero).1
    ∧ (buildMany litShape 2 czero).1.length = 2 := by
  have h := build_range_amended Int litShape 2 2 (by decide) (by decide) 0
    (le_refl 0) zero_lt_one czero
  have he : getRandomInt 2 2 0 = 2 := h.2.2.1 rfl
  have hne : getRandomInt 2 2 0 ≠ 1 := by
    rw [he]
    decide
  have h2 := h.2.2.2.2.1 hne
  rw [he] at h2
  exact ⟨he, by simpa using h2.1, by simpa using h2.2⟩

/-! ## Heap lemmas for the immutability claim -/

theorem runTransforms_length [Inhabited V] (h : List (Shape V))
    (steps : List (Nat × Transform V)) :
    (runTransforms h steps).length = h.length + steps.length := by
  induction steps generalizing h with
  | nil => simp [runTransforms]
  | cons step rest ih =>
    have h2 := ih (runTransform h step)
    have hlen : (runTransform h step).length = h.length + 1 := by
      simp [runTransform]
    rw [show runTransforms h (step :: rest)
        = runTransforms (runTransform h step) rest from rfl, h2, hlen]
    simp only [List.length_cons]
    omega

theorem runTransforms_getD [Inhabited V] (h : List (Shape V)) (i : Nat)
    (hi : i < h.length) (steps : List (Nat × Transform V)) :
    (runTransforms h steps).getD i [] = h.getD i [] := by
  induction steps generalizing h with
  | nil => rfl
  | cons step rest ih =>
    have hlen : (runTransform h step).length = h.length + 1 := by
      simp [runTransform]
    have hi2 : i < (runTransform h step).length := by omega
    have hd : (runTransform h step).getD i [] = h.getD i [] := by
      simp only [runTransform]
      exact List.getD_append h _ [] i hi
    have := ih (runTransform h step) hi2
    rw [show runTransforms h (step :: rest)
        = runTransforms (runTransform h step) rest from rfl, this, hd]

/-- C8: every transformation call allocates a new builder on the heap
(`new Builder(newShape)`): after any sequence of calls, each addressed to any
builder, every pre-existing builder still holds its original shape, so
resolving it gives exactly what it gave before (from the same thunk state). -/
theorem transformations_leave_receiver_unchanged (V : Type) [Inhabited V]
    (h : List (Shape V)) (i : Nat) (hi : i < h.length)
    (steps : List (Nat × Transform V)) (c : Counters) :
    (runTransforms h steps).length = h.length + steps.length
    ∧ (runTransforms h steps).getD i [] = h.getD i []
    ∧ buildSingle ((runTransforms h steps).getD i []) c
        = buildSingle (h.getD i []) c := by
  refine ⟨runTransforms_length h steps, runTransforms_getD h i hi steps, ?_⟩
  rw [runTransforms_getD h i hi steps]

/-- Witness for C8: one `withValue` call on the only builder of the heap
adds a second builder and leaves the first one's shape intact. -/
theorem transformations_witness :
    (runTransforms [litShape] [(0, Transform.withValue "id" 42)]).length = 2
    ∧ (runTransforms [litShape] [(0, Transform.withValue "id" 42)]).getD 0 []
        = litShape := by
  have h := transformations_leave_receiver_unchanged Int [litShape] 0
    (by decide) [(0, Transform.withValue "id" 42)] czero
  exact ⟨h.1, h.2.1⟩

end MockBuilder
